import Mathlib

/-!
Shallow embedding of the `simple-compiler` tokenizer (files `tokens.py` and
`tokenizer.py`).  Strings are modelled as `List Char`, the Python null
character `"\0"` as `nullChar`, machine state mutation as explicit state
passing, and Python exceptions as explicit result constructors.
-/

namespace Tokenizer

/-- Null sentinel character, Python `"\0"`. -/
def nullChar : Char := '\x00'

/-- ASCII model of Python `str.isdigit` (all inputs of interest are ASCII). -/
def isdigit (c : Char) : Bool := '0' ≤ c && c ≤ '9'

/-- ASCII model of Python `str.isalpha`. -/
def isalpha (c : Char) : Bool := ('a' ≤ c && c ≤ 'z') || ('A' ≤ c && c ≤ 'Z')

/-- ASCII model of Python `str.isalnum`. -/
def isalnum (c : Char) : Bool := isalpha c || isdigit c

/-- ASCII model of the regex character class `[^\S\r\n]` used in
`_remove_whitespace`: whitespace other than carriage return and newline. -/
def isHWS (c : Char) : Bool := c = ' ' || c = '\t' || c = '\x0b' || c = '\x0c'

/-- Convenience conversion from a Lean string literal to the character-list
representation used throughout. -/
def str (s : String) : List Char := s.data

/-- The `TokenType` enumeration of `tokens.py`, constructors in Python
declaration order. -/
inductive TokenType where
  | EOF
  | NEWLINE
  | NUMBER
  | IDENT
  | STRING
  | LABEL
  | GOTO
  | PRINT
  | INPUT
  | LET
  | IF
  | THEN
  | ENDIF
  | WHILE
  | REPEAT
  | ENDWHILE
  | EQ
  | PLUS
  | MINUS
  | STAR
  | SLASH
  | EQEQ
  | NOTEQ
  | LT
  | LTEQ
  | GT
  | GTEQ
deriving DecidableEq

/-- Numeric value of each enum member, as declared in `tokens.py`. -/
def TokenType.value : TokenType → Int
  | .EOF => -1
  | .NEWLINE => 0
  | .NUMBER => 1
  | .IDENT => 2
  | .STRING => 3
  | .LABEL => 101
  | .GOTO => 102
  | .PRINT => 103
  | .INPUT => 104
  | .LET => 105
  | .IF => 106
  | .THEN => 107
  | .ENDIF => 108
  | .WHILE => 109
  | .REPEAT => 110
  | .ENDWHILE => 111
  | .EQ => 201
  | .PLUS => 202
  | .MINUS => 203
  | .STAR => 204
  | .SLASH => 205
  | .EQEQ => 206
  | .NOTEQ => 207
  | .LT => 208
  | .LTEQ => 209
  | .GT => 210
  | .GTEQ => 211

/-- The Python enum member name (`kind.name`). -/
def TokenType.name : TokenType → List Char
  | .EOF => str "EOF"
  | .NEWLINE => str "NEWLINE"
  | .NUMBER => str "NUMBER"
  | .IDENT => str "IDENT"
  | .STRING => str "STRING"
  | .LABEL => str "LABEL"
  | .GOTO => str "GOTO"
  | .PRINT => str "PRINT"
  | .INPUT => str "INPUT"
  | .LET => str "LET"
  | .IF => str "IF"
  | .THEN => str "THEN"
  | .ENDIF => str "ENDIF"
  | .WHILE => str "WHILE"
  | .REPEAT => str "REPEAT"
  | .ENDWHILE => str "ENDWHILE"
  | .EQ => str "EQ"
  | .PLUS => str "PLUS"
  | .MINUS => str "MINUS"
  | .STAR => str "STAR"
  | .SLASH => str "SLASH"
  | .EQEQ => str "EQEQ"
  | .NOTEQ => str "NOTEQ"
  | .LT => str "LT"
  | .LTEQ => str "LTEQ"
  | .GT => str "GT"
  | .GTEQ => str "GTEQ"

/-- Iteration order of `for kind in TokenType` (Python declaration order). -/
def allTokenTypes : List TokenType :=
  [.EOF, .NEWLINE, .NUMBER, .IDENT, .STRING,
   .LABEL, .GOTO, .PRINT, .INPUT, .LET, .IF, .THEN, .ENDIF, .WHILE, .REPEAT,
   .ENDWHILE,
   .EQ, .PLUS, .MINUS, .STAR, .SLASH, .EQEQ, .NOTEQ, .LT, .LTEQ, .GT, .GTEQ]

/-- The `TOKEN_TYPES` dictionary of `tokens.py`: lookup of an operator lexeme.
A Python dict lookup is key equality, rendered here as an equality chain. -/
def TOKEN_TYPES (key : List Char) : Option TokenType :=
  if key = ['+'] then some .PLUS
  else if key = ['-'] then some .MINUS
  else if key = ['*'] then some .STAR
  else if key = ['/'] then some .SLASH
  else if key = ['<'] then some .LT
  else if key = ['>'] then some .GT
  else if key = ['<', '='] then some .LTEQ
  else if key = ['>', '='] then some .GTEQ
  else if key = ['='] then some .EQ
  else if key = ['=', '='] then some .EQEQ
  else if key = ['!', '='] then some .NOTEQ
  else none

/-- A language token: exact lexeme text plus kind (`Token` in `tokenizer.py`). -/
structure Token where
  text : List Char
  kind : TokenType
deriving DecidableEq

/-- `Token.check_if_keyword`: first enum member whose name equals the text and
whose value lies in the keyword band `[100, 200)`. -/
def check_if_keyword (token_text : List Char) : Option TokenType :=
  allTokenTypes.find? fun kind =>
    decide (kind.name = token_text) && decide (100 ≤ kind.value) &&
      decide (kind.value < 200)

/-- Split a list at its first double quote: `some (body, after)` when the list
is `body ++ ill-quote ++ after` with no quote in `body`; `none` when the list
has no double quote.  This models both `str.find` of a quote and the regex
piece `[^...]*` followed by a quote. -/
def splitAtQuote : List Char → Option (List Char × List Char)
  | [] => none
  | c :: rest =>
    if c = '"' then some ([], rest)
    else
      match splitAtQuote rest with
      | some (body, after) => some (c :: body, after)
      | none => none

/-- Fuel-driven body of `_remove_whitespace`: the regex
`"[^"]*"|([^\S\r\n]+)` applied by `re.sub`, keeping quoted segments verbatim
and deleting maximal horizontal-whitespace runs.  Fuel at least the length of
the list makes the fuel pattern exact. -/
def removeWhitespaceAux : Nat → List Char → List Char
  | 0, l => l
  | _ + 1, [] => []
  | fuel + 1, c :: rest =>
    if c = '"' then
      match splitAtQuote rest with
      | some (body, after) => '"' :: body ++ '"' :: removeWhitespaceAux fuel after
      | none => c :: removeWhitespaceAux fuel rest
    else if isHWS c then removeWhitespaceAux fuel (rest.dropWhile isHWS)
    else c :: removeWhitespaceAux fuel rest

/-- `TokenGenerator._remove_whitespace`. -/
def remove_whitespace (input : List Char) : List Char :=
  removeWhitespaceAux input.length input

/-- Locate the end of a greedy match of `.*\*/` (dot excludes newline): the
last `*/` reachable without crossing a newline, returning the suffix after
that `*/`.  Models the greedy tail of the regex `/\*.*\*/`. -/
def lastCloseSplit : List Char → Option (List Char)
  | [] => none
  | c :: rest =>
    if c = '\n' then none
    else
      match lastCloseSplit rest with
      | some suffix => some suffix
      | none =>
        if c = '*' ∧ rest.head? = some '/' then some rest.tail else none

/-- Fuel-driven body of `_remove_comments`: `re.sub` with pattern
`/\*.*\*/` (greedy, dot excludes newline), scanning left to right and
deleting each leftmost match. -/
def removeCommentsAux : Nat → List Char → List Char
  | 0, l => l
  | _ + 1, [] => []
  | fuel + 1, c :: rest =>
    match c, rest with
    | '/', '*' :: rest2 =>
      match lastCloseSplit rest2 with
      | some suffix => removeCommentsAux fuel suffix
      | none => c :: removeCommentsAux fuel rest
    | _, _ => c :: removeCommentsAux fuel rest

/-- `TokenGenerator._remove_comments`. -/
def remove_comments (input : List Char) : List Char :=
  removeCommentsAux input.length input

/-- `TokenGenerator._peek`: character after the cursor, or the null sentinel
when past the end. -/
def peek (source : List Char) (cur_pos : Nat) : Char :=
  match source[cur_pos + 1]? with
  | some c => c
  | none => nullChar

/-- A `while p(peek()): cur_pos += 1` loop.  All call sites pass fuel
`source.length`, which can never be exhausted since each step needs a real
character after the cursor. -/
def skipWhile (p : Char → Bool) (source : List Char) : Nat → Nat → Nat
  | cur_pos, 0 => cur_pos
  | cur_pos, fuel + 1 =>
    if p (peek source cur_pos) then skipWhile p source (cur_pos + 1) fuel
    else cur_pos

/-- Failures raised by the tokenizer (`ValueError` carrying the two distinct
messages of `tokenizer.py`). -/
inductive LexError where
  | malformedNumber
  | unrecognizedChar (c : Char)
deriving DecidableEq

/-- `TokenGenerator._get_number`.  Returns `none` when the rule does not
apply, otherwise the token and the updated cursor, or the malformed-number
error. -/
def get_number (source : List Char) (cur_char : Char) (cur_pos : Nat) :
    Option (Except LexError (Token × Nat)) :=
  if isdigit cur_char then
    let start_pos := cur_pos
    let pos1 := skipWhile isdigit source cur_pos source.length
    if peek source pos1 = '.' then
      let pos2 := pos1 + 1
      if ¬ isdigit (peek source pos2) then some (.error .malformedNumber)
      else
        let pos3 := skipWhile isdigit source pos2 source.length
        some (.ok (⟨(source.drop start_pos).take (pos3 + 1 - start_pos), .NUMBER⟩, pos3))
    else some (.ok (⟨(source.drop start_pos).take (pos1 + 1 - start_pos), .NUMBER⟩, pos1))
  else none

/-- `TokenGenerator._get_ident_or_keyword`. -/
def get_ident_or_keyword (source : List Char) (cur_char : Char) (cur_pos : Nat) :
    Option (Token × Nat) :=
  if isalpha cur_char then
    let start_pos := cur_pos
    let pos1 := skipWhile isalnum source cur_pos source.length
    let tok_text := (source.drop start_pos).take (pos1 + 1 - start_pos)
    match check_if_keyword tok_text with
    | some keyword => some (⟨tok_text, keyword⟩, pos1)
    | none => some (⟨tok_text, .IDENT⟩, pos1)
  else none

/-- `TokenGenerator._get_string`.  In the found case `str.find` locates the
closing quote and the lexeme is the text strictly between the quotes.  In the
not-found case Python's `find` returns `-1` and the slice `[pos+1 : -1]`
drops the final character of the source (`dropLast`). -/
def get_string (source : List Char) (cur_char : Char) (cur_pos : Nat) :
    Option (Token × Nat) :=
  if cur_char = '"' then
    match splitAtQuote (source.drop (cur_pos + 1)) with
    | some (body, _) => some (⟨body, .STRING⟩, cur_pos + body.length + 1)
    | none =>
      let body := (source.drop (cur_pos + 1)).dropLast
      some (⟨body, .STRING⟩, cur_pos + body.length + 1)
  else none

/-- `TokenGenerator._get_EOF`. -/
def get_EOF (cur_char : Char) (cur_pos : Nat) : Option (Token × Nat) :=
  if cur_char = nullChar then some (⟨[cur_char], .EOF⟩, cur_pos) else none

/-- `TokenGenerator._get_newlines`: Python compares the one-character string
`cur_char` against the list `["\n", "\r\n"]`; the second comparison is kept
verbatim even though a single character can never equal a two-character
string. -/
def get_newlines (cur_char : Char) (cur_pos : Nat) : Option (Token × Nat) :=
  if [cur_char] = ['\n'] ∨ [cur_char] = ['\r', '\n'] then
    some (⟨[cur_char], .NEWLINE⟩, cur_pos)
  else none

/-- `TokenGenerator._is_operator`: two-character dictionary lookup first,
then single-character lookup. -/
def is_operator (source : List Char) (cur_char : Char) (cur_pos : Nat) :
    Option (Token × Nat) :=
  match TOKEN_TYPES [cur_char, peek source cur_pos] with
  | some token_type =>
    some (⟨[cur_char, peek source cur_pos], token_type⟩, cur_pos + 1)
  | none =>
    match TOKEN_TYPES [cur_char] with
    | some token_type => some (⟨[cur_char], token_type⟩, cur_pos)
    | none => none

/-- `TokenGenerator._get_next_token`: the ordered strategy list; the first
strategy returning a token wins, otherwise the unrecognized-character error. -/
def get_next_token (source : List Char) (cur_char : Char) (cur_pos : Nat) :
    Except LexError (Token × Nat) :=
  match get_number source cur_char cur_pos with
  | some r => r
  | none =>
    match get_ident_or_keyword source cur_char cur_pos with
    | some r => .ok r
    | none =>
      match get_EOF cur_char cur_pos with
      | some r => .ok r
      | none =>
        match get_newlines cur_char cur_pos with
        | some r => .ok r
        | none =>
          match get_string source cur_char cur_pos with
          | some r => .ok r
          | none =>
            match is_operator source cur_char cur_pos with
            | some r => .ok r
            | none => .error (.unrecognizedChar cur_char)

/-- Mutable state of a `TokenGenerator`: the preprocessed source, the cursor,
the `_next_char` cache (`none` models the initial Python value `""`), and the
`_at_end` flag. -/
structure LexerState where
  source : List Char
  cur_pos : Nat
  next_char : Option Char
  at_end : Bool
deriving DecidableEq

/-- Result of one `__next__` call: a token plus the successor state, the
`StopIteration` signal, or a raised lexing error. -/
inductive NextResult where
  | tok (t : Token) (s : LexerState)
  | stopIteration
  | err (e : LexError)
deriving DecidableEq

/-- `TokenGenerator.__next__`. -/
def produce_next (s : LexerState) : NextResult :=
  if s.at_end then .stopIteration
  else
    let new_at_end := decide (s.next_char = some nullChar)
    let cur_char :=
      match s.source[s.cur_pos]? with
      | some c => c
      | none => nullChar
    match get_next_token s.source cur_char s.cur_pos with
    | .error e => .err e
    | .ok (token, pos) =>
      .tok token ⟨s.source, pos + 1, some (peek s.source pos), new_at_end⟩

/-- `TokenGenerator.__init__`: strip whitespace, then comments, cursor at 0. -/
def TokenGenerator (input : List Char) : LexerState :=
  ⟨remove_comments (remove_whitespace input), 0, none, false⟩

/-- Outcome of iterating the generator to exhaustion. -/
inductive RunOutcome where
  | finished
  | failed (e : LexError)
  | outOfFuel
deriving DecidableEq

/-- Iterate `produce_next`, collecting tokens until `StopIteration` or an
error. -/
def run : Nat → LexerState → List Token × RunOutcome
  | 0, _ => ([], .outOfFuel)
  | fuel + 1, s =>
    match produce_next s with
    | .stopIteration => ([], .finished)
    | .err e => ([], .failed e)
    | .tok t s2 =>
      let r := run fuel s2
      (t :: r.1, r.2)

/-- Full pipeline: construct the generator and iterate it to exhaustion.  The
fuel bound suffices because every produced token either advances the cursor
or is an end-of-input token, of which at most two can occur. -/
def tokenize (input : List Char) : List Token × RunOutcome :=
  run ((remove_comments (remove_whitespace input)).length + 4) (TokenGenerator input)

/-- Specification-side description of the number rule of the spec: all
following digits, then optionally a dot that must be followed by at least one
digit, then all following digits; `rest` is the source after the starting
digit `c`. -/
def numberSpec (c : Char) (rest : List Char) : Except LexError (List Char) :=
  let run1 := rest.takeWhile isdigit
  match rest.drop run1.length with
  | '.' :: rest2 =>
    let run2 := rest2.takeWhile isdigit
    if run2.length = 0 then .error .malformedNumber
    else .ok (c :: run1 ++ '.' :: run2)
  | _ => .ok (c :: run1)

/-- Claim C1: on an input that is empty after stripping, the code emits the
`EndOfInput` token twice before `StopIteration`, because `_next_char` starts
as the empty string rather than the null sentinel; this contradicts the
claimed exactly-once emission. -/
theorem eof_emitted_twice_on_empty_input :
    tokenize (str "") =
      ([⟨[nullChar], .EOF⟩, ⟨[nullChar], .EOF⟩], .finished) := by decide

/-- Claim C2: on a double quote with no closing quote, the code does not fail
with an unterminated-string error; it returns a truncated `StringLiteral`
token (Python `find` returns `-1` and the slice drops the last character)
and then finishes normally. -/
theorem unterminated_string_yields_truncated_token :
    tokenize (str "\"unterminated") =
      ([⟨str "unterminate", .STRING⟩, ⟨[nullChar], .EOF⟩], .finished) := by
  decide

/-- Claim C6: lexing the stated inputs with extra horizontal whitespace or a
single-line block comment yields exactly the same token sequence as the
normalized inputs. -/
theorem normalization_equivalence :
    tokenize (str "  1 + 1  ") = tokenize (str "1+1") ∧
      tokenize (str "1 /*c*/ + 1") = tokenize (str "1 + 1") := by decide

/-- Claim C7: full token sequences for the two stated inputs, ending with
`EndOfInput` and then normal termination of the iteration. -/
theorem end_to_end_token_sequences :
    tokenize (str "+ * -567.98") =
      ([⟨str "+", .PLUS⟩, ⟨str "*", .STAR⟩, ⟨str "-", .MINUS⟩,
        ⟨str "567.98", .NUMBER⟩, ⟨[nullChar], .EOF⟩], .finished) ∧
      tokenize (str "LABEL\nGOTO") =
        ([⟨str "LABEL", .LABEL⟩, ⟨str "\n", .NEWLINE⟩, ⟨str "GOTO", .GOTO⟩,
          ⟨[nullChar], .EOF⟩], .finished) := by decide


theorem skipWhile_le (p : Char → Bool) (source : List Char) :
    ∀ fuel cur_pos, cur_pos ≤ skipWhile p source cur_pos fuel := by
  intro fuel
  induction fuel with
  | zero => intro pos; simp [skipWhile]
  | succ fuel ih =>
    intro pos
    simp only [skipWhile]
    by_cases h : p (peek source pos)
    · simp only [h, if_true]
      exact Nat.le_trans (Nat.le_succ pos) (ih (pos + 1))
    · simp [h]

theorem take_length_takeWhile (p : Char → Bool) (l : List Char) :
    l.take (l.takeWhile p).length = l.takeWhile p := by
  induction l with
  | nil => rfl
  | cons c t ih =>
    by_cases h : p c
    · simp [List.takeWhile_cons, h, ih]
    · simp [List.takeWhile_cons, h]

theorem drop_length_takeWhile (p : Char → Bool) (l : List Char) :
    l.drop (l.takeWhile p).length = l.dropWhile p := by
  induction l with
  | nil => rfl
  | cons c t ih =>
    by_cases h : p c
    · simp [List.takeWhile_cons, List.dropWhile_cons, h, ih]
    · simp [List.takeWhile_cons, List.dropWhile_cons, h]

theorem peek_eq_of_getElem (source : List Char) (pos : Nat) (c : Char)
    (h : source[pos + 1]? = some c) : peek source pos = c := by
  simp [peek, h]

theorem skipWhile_spec (p : Char → Bool) (source : List Char)
    (hp : p nullChar = false) :
    ∀ fuel cur_pos, ((source.drop (cur_pos + 1)).takeWhile p).length ≤ fuel →
      skipWhile p source cur_pos fuel =
        cur_pos + ((source.drop (cur_pos + 1)).takeWhile p).length := by
  intro fuel
  induction fuel with
  | zero =>
    intro pos h
    have h0 : ((source.drop (pos + 1)).takeWhile p).length = 0 := Nat.le_zero.mp h
    simp [skipWhile, h0]
  | succ fuel ih =>
    intro pos h
    simp only [skipWhile]
    cases hg : source[pos + 1]? with
    | none =>
      have hlen : source.length ≤ pos + 1 := by
        exact List.getElem?_eq_none_iff.mp hg
      have hdrop : source.drop (pos + 1) = [] := List.drop_eq_nil_iff.mpr hlen
      have hpeek : peek source pos = nullChar := by simp [peek, hg]
      rw [hpeek, hp]
      simp [hdrop]
    | some c =>
      have hpeek : peek source pos = c := by simp [peek, hg]
      have hlt : pos + 1 < source.length := by
        by_contra hcon
        have : source[pos + 1]? = none := by
          exact List.getElem?_eq_none (Nat.le_of_not_lt hcon)
        simp [this] at hg
      have hdrop : source.drop (pos + 1) = c :: source.drop (pos + 2) := by
        have := List.drop_eq_getElem_cons hlt
        have hc : source[pos + 1] = c := by
          have := List.getElem?_eq_getElem hlt
          rw [this] at hg
          exact Option.some.inj hg
        rw [this, hc]
      rw [hpeek]
      by_cases hpc : p c
      · rw [if_pos hpc]
        rw [hdrop] at h ⊢
        rw [List.takeWhile_cons, if_pos hpc] at h ⊢
        simp only [List.length_cons] at h ⊢
        have hb : ((source.drop (pos + 1 + 1)).takeWhile p).length ≤ fuel := by
          have hb2 : ((source.drop (pos + 2)).takeWhile p).length ≤ fuel := by omega
          exact hb2
        rw [ih (pos + 1) hb]
        have he : source.drop (pos + 1 + 1) = source.drop (pos + 2) := rfl
        rw [he]
        omega
      · rw [if_neg hpc, hdrop, List.takeWhile_cons, if_neg hpc]
        simp


example : (['\r', 'x'] : List Char) ≠ ['+'] := by simp

example (d : Char) : (['\r', d] : List Char) ≠ ['<', '='] := by simp

example (d : Char) : TOKEN_TYPES ['\r', d] = none := by simp [TOKEN_TYPES]

example (pos : Nat) : get_newlines '\r' pos = none := by simp [get_newlines]

example (source : List Char) (c : Char) (pos : Nat) (h : isdigit c = false) :
    get_number source c pos = none := by simp [get_number, h]

theorem produce_next_eq_of (s : LexerState) (c : Char)
    (h1 : s.at_end = false) (h2 : s.source[s.cur_pos]? = some c) :
    produce_next s =
      match get_next_token s.source c s.cur_pos with
      | .error e => .err e
      | .ok (token, pos) =>
        .tok token
          ⟨s.source, pos + 1, some (peek s.source pos),
            decide (s.next_char = some nullChar)⟩ := by
  simp [produce_next, h1, h2]

theorem isdigit_false_of_isalpha (c : Char) (h : isalpha c = true) :
    isdigit c = false := by
  simp only [isalpha, Bool.or_eq_true, Bool.and_eq_true, decide_eq_true_eq] at h
  have h9 : ¬ c ≤ '9' := by
    rcases h with ⟨h1, _⟩ | ⟨h1, _⟩
    · exact fun hc => absurd (le_trans h1 hc) (by decide)
    · exact fun hc => absurd (le_trans h1 hc) (by decide)
  simp [isdigit, h9]

theorem isalnum_of_isalpha (c : Char) (h : isalpha c = true) :
    isalnum c = true := by
  simp [isalnum, h]


theorem get_number_none (source : List Char) (c : Char) (pos : Nat)
    (h : isdigit c = false) : get_number source c pos = none := by
  simp [get_number, h]

theorem get_ident_none (source : List Char) (c : Char) (pos : Nat)
    (h : isalpha c = false) : get_ident_or_keyword source c pos = none := by
  simp [get_ident_or_keyword, h]

theorem get_EOF_none (c : Char) (pos : Nat) (h : c ≠ nullChar) :
    get_EOF c pos = none := by
  simp [get_EOF, h]

theorem get_newlines_none (c : Char) (pos : Nat) (h : c ≠ '\n') :
    get_newlines c pos = none := by
  simp [get_newlines, h]

theorem get_string_none (source : List Char) (c : Char) (pos : Nat)
    (h : c ≠ '"') : get_string source c pos = none := by
  simp [get_string, h]

theorem get_next_token_op (source : List Char) (c d : Char) (pos : Nat)
    (tt : TokenType) (hd : peek source pos = d)
    (h1 : isdigit c = false) (h2 : isalpha c = false) (h3 : c ≠ nullChar)
    (h4 : c ≠ '\n') (h5 : c ≠ '"')
    (htt : TOKEN_TYPES [c, d] = some tt) :
    get_next_token source c pos = .ok (⟨[c, d], tt⟩, pos + 1) := by
  simp [get_next_token, get_number_none _ _ _ h1, get_ident_none _ _ _ h2,
    get_EOF_none _ _ h3, get_newlines_none _ _ h4, get_string_none _ _ _ h5,
    is_operator, hd, htt]

theorem get_next_token_unrecognized (source : List Char) (c : Char) (pos : Nat)
    (h1 : isdigit c = false) (h2 : isalpha c = false) (h3 : c ≠ nullChar)
    (h4 : c ≠ '\n') (h5 : c ≠ '"')
    (h6 : ∀ d, TOKEN_TYPES [c, d] = none) (h7 : TOKEN_TYPES [c] = none) :
    get_next_token source c pos = .error (.unrecognizedChar c) := by
  simp [get_next_token, get_number_none _ _ _ h1, get_ident_none _ _ _ h2,
    get_EOF_none _ _ h3, get_newlines_none _ _ h4, get_string_none _ _ _ h5,
    is_operator, h6 (peek source pos), h7]

theorem get_number_le (source : List Char) (c : Char) (pos : Nat)
    (t : Token) (pos2 : Nat)
    (h : get_number source c pos = some (.ok (t, pos2))) : pos ≤ pos2 := by
  have hle := skipWhile_le isdigit source source.length pos
  have hle2 := skipWhile_le isdigit source source.length
    (skipWhile isdigit source pos source.length + 1)
  simp only [get_number] at h
  split at h
  · split at h
    · split at h
      · simp at h
      · simp only [Option.some.injEq, Except.ok.injEq, Prod.mk.injEq] at h
        omega
    · simp only [Option.some.injEq, Except.ok.injEq, Prod.mk.injEq] at h
      omega
  · simp at h

theorem get_ident_le (source : List Char) (c : Char) (pos : Nat)
    (t : Token) (pos2 : Nat)
    (h : get_ident_or_keyword source c pos = some (t, pos2)) : pos ≤ pos2 := by
  have hle := skipWhile_le isalnum source source.length pos
  simp only [get_ident_or_keyword] at h
  split at h
  · split at h
    · simp only [Option.some.injEq, Prod.mk.injEq] at h
      omega
    · simp only [Option.some.injEq, Prod.mk.injEq] at h
      omega
  · simp at h

theorem get_EOF_le (c : Char) (pos : Nat) (t : Token) (pos2 : Nat)
    (h : get_EOF c pos = some (t, pos2)) : pos ≤ pos2 := by
  simp only [get_EOF] at h
  split at h
  · simp only [Option.some.injEq, Prod.mk.injEq] at h
    omega
  · simp at h

theorem get_newlines_le (c : Char) (pos : Nat) (t : Token) (pos2 : Nat)
    (h : get_newlines c pos = some (t, pos2)) : pos ≤ pos2 := by
  simp only [get_newlines] at h
  split at h
  · simp only [Option.some.injEq, Prod.mk.injEq] at h
    omega
  · simp at h

theorem get_string_le (source : List Char) (c : Char) (pos : Nat)
    (t : Token) (pos2 : Nat)
    (h : get_string source c pos = some (t, pos2)) : pos ≤ pos2 := by
  simp only [get_string] at h
  split at h
  · split at h
    · simp only [Option.some.injEq, Prod.mk.injEq] at h
      omega
    · simp only [Option.some.injEq, Prod.mk.injEq] at h
      omega
  · simp at h

theorem is_operator_le (source : List Char) (c : Char) (pos : Nat)
    (t : Token) (pos2 : Nat)
    (h : is_operator source c pos = some (t, pos2)) : pos ≤ pos2 := by
  simp only [is_operator] at h
  split at h
  · simp only [Option.some.injEq, Prod.mk.injEq] at h
    omega
  · split at h
    · simp only [Option.some.injEq, Prod.mk.injEq] at h
      omega
    · simp at h

theorem get_next_token_le (source : List Char) (c : Char) (pos : Nat)
    (t : Token) (pos2 : Nat)
    (h : get_next_token source c pos = .ok (t, pos2)) : pos ≤ pos2 := by
  simp only [get_next_token] at h
  cases h1 : get_number source c pos with
  | some r =>
    rw [h1] at h
    cases r with
    | error e => simp at h
    | ok p =>
      simp only [Except.ok.injEq] at h
      exact get_number_le source c pos t pos2 (by rw [h1, h])
  | none =>
    rw [h1] at h
    cases h2 : get_ident_or_keyword source c pos with
    | some r =>
      rw [h2] at h
      simp only [Except.ok.injEq] at h
      exact get_ident_le source c pos t pos2 (by rw [h2, h])
    | none =>
      rw [h2] at h
      cases h3 : get_EOF c pos with
      | some r =>
        rw [h3] at h
        simp only [Except.ok.injEq] at h
        exact get_EOF_le c pos t pos2 (by rw [h3, h])
      | none =>
        rw [h3] at h
        cases h4 : get_newlines c pos with
        | some r =>
          rw [h4] at h
          simp only [Except.ok.injEq] at h
          exact get_newlines_le c pos t pos2 (by rw [h4, h])
        | none =>
          rw [h4] at h
          cases h5 : get_string source c pos with
          | some r =>
            rw [h5] at h
            simp only [Except.ok.injEq] at h
            exact get_string_le source c pos t pos2 (by rw [h5, h])
          | none =>
            rw [h5] at h
            cases h6 : is_operator source c pos with
            | some r =>
              rw [h6] at h
              simp only [Except.ok.injEq] at h
              exact is_operator_le source c pos t pos2 (by rw [h6, h])
            | none =>
              rw [h6] at h
              simp at h

theorem produce_next_tok_inv (s : LexerState) (t : Token) (s2 : LexerState)
    (h : produce_next s = .tok t s2) :
    s.cur_pos < s2.cur_pos ∧ s2.source = s.source ∧ s.at_end = false := by
  by_cases ha : s.at_end
  · simp [produce_next, ha] at h
  · have ha2 : s.at_end = false := eq_false_of_ne_true ha
    simp only [produce_next, ha2, Bool.false_eq_true, if_false] at h
    rcases hg : get_next_token s.source
        (match s.source[s.cur_pos]? with
          | some c => c
          | none => nullChar) s.cur_pos with e | p
    · rw [hg] at h
      simp at h
    · rw [hg] at h
      simp only [NextResult.tok.injEq] at h
      obtain ⟨rfl, rfl⟩ := h
      have hle := get_next_token_le s.source _ s.cur_pos p.1 p.2 (by rw [hg])
      refine ⟨?_, rfl, ha2⟩
      simp only []
      omega

/-- Claim C8: across every successful call to `produce_next` the cursor index
strictly increases (by at least one position per produced token) and the
preprocessed source string is unchanged; a successful call can only start
from a non-terminated state, and from a terminated state every request fails
with the iteration-exhausted signal, so the terminated flag never reverts. -/
theorem cursor_monotonicity :
    (∀ (s : LexerState) (t : Token) (s2 : LexerState),
        produce_next s = .tok t s2 →
          s.cur_pos < s2.cur_pos ∧ s2.source = s.source ∧ s.at_end = false) ∧
      ∀ s : LexerState, s.at_end = true → produce_next s = .stopIteration := by
  constructor
  · exact produce_next_tok_inv
  · intro s h
    simp [produce_next, h]


theorem TOKEN_TYPES_two_char (c d : Char) (tt : TokenType)
    (h : TOKEN_TYPES [c, d] = some tt) :
    (c = '<' ∧ d = '=' ∧ tt = .LTEQ) ∨ (c = '>' ∧ d = '=' ∧ tt = .GTEQ) ∨
      (c = '=' ∧ d = '=' ∧ tt = .EQEQ) ∨ (c = '!' ∧ d = '=' ∧ tt = .NOTEQ) := by
  by_cases hd : d = '='
  · subst hd
    by_cases hc1 : c = '<'
    · subst hc1
      rw [(by decide : TOKEN_TYPES ['<', '='] = some TokenType.LTEQ)] at h
      injection h with h2
      exact Or.inl ⟨rfl, rfl, h2.symm⟩
    · by_cases hc2 : c = '>'
      · subst hc2
        rw [(by decide : TOKEN_TYPES ['>', '='] = some TokenType.GTEQ)] at h
        injection h with h2
        exact Or.inr (Or.inl ⟨rfl, rfl, h2.symm⟩)
      · by_cases hc3 : c = '='
        · subst hc3
          rw [(by decide : TOKEN_TYPES ['=', '='] = some TokenType.EQEQ)] at h
          injection h with h2
          exact Or.inr (Or.inr (Or.inl ⟨rfl, rfl, h2.symm⟩))
        · by_cases hc4 : c = '!'
          · subst hc4
            rw [(by decide : TOKEN_TYPES ['!', '='] = some TokenType.NOTEQ)] at h
            injection h with h2
            exact Or.inr (Or.inr (Or.inr ⟨rfl, rfl, h2.symm⟩))
          · rw [(by simp [TOKEN_TYPES, hc1, hc2, hc3, hc4] :
              TOKEN_TYPES [c, '='] = none)] at h
            exact absurd h (by simp)
  · rw [(by simp [TOKEN_TYPES, hd] : TOKEN_TYPES [c, d] = none)] at h
    exact absurd h (by simp)

/-- Claim C3: maximal munch.  Whenever the current character together with
its one-character lookahead forms a two-character entry of the operator
table, `produce_next` emits that single two-character operator token,
advancing the cursor past both characters, so the two single-character
tokens are never produced; in particular `"<="` lexes to exactly one `LtEq`
token followed by `EndOfInput`. -/
theorem maximal_munch :
    (∀ (s : LexerState) (c d : Char) (tt : TokenType),
        s.at_end = false →
        s.source[s.cur_pos]? = some c →
        peek s.source s.cur_pos = d →
        TOKEN_TYPES [c, d] = some tt →
        produce_next s =
          .tok ⟨[c, d], tt⟩
            ⟨s.source, s.cur_pos + 2, some (peek s.source (s.cur_pos + 1)),
              decide (s.next_char = some nullChar)⟩) ∧
      tokenize (str "<=") =
        ([⟨str "<=", .LTEQ⟩, ⟨[nullChar], .EOF⟩], .finished) := by
  constructor
  · intro s c d tt h1 h2 h3 htt
    rcases TOKEN_TYPES_two_char c d tt htt with ⟨rfl, rfl, rfl⟩ | ⟨rfl, rfl, rfl⟩ |
      ⟨rfl, rfl, rfl⟩ | ⟨rfl, rfl, rfl⟩
    · rw [produce_next_eq_of s '<' h1 h2,
        get_next_token_op s.source '<' '=' s.cur_pos TokenType.LTEQ h3 (by decide)
          (by decide) (by decide) (by decide) (by decide) (by decide)]
    · rw [produce_next_eq_of s '>' h1 h2,
        get_next_token_op s.source '>' '=' s.cur_pos TokenType.GTEQ h3 (by decide)
          (by decide) (by decide) (by decide) (by decide) (by decide)]
    · rw [produce_next_eq_of s '=' h1 h2,
        get_next_token_op s.source '=' '=' s.cur_pos TokenType.EQEQ h3 (by decide)
          (by decide) (by decide) (by decide) (by decide) (by decide)]
    · rw [produce_next_eq_of s '!' h1 h2,
        get_next_token_op s.source '!' '=' s.cur_pos TokenType.NOTEQ h3 (by decide)
          (by decide) (by decide) (by decide) (by decide) (by decide)]
  · decide


theorem isHWS_ne_cr (c : Char) (h : isHWS c = true) : c ≠ '\r' := by
  have h2 : ((c = ' ' ∨ c = '\t') ∨ c = '\x0b') ∨ c = '\x0c' := by
    simpa [isHWS] using h
  rcases h2 with ((rfl | rfl) | rfl) | rfl <;> decide

theorem count_cr_takeWhile_hws (l : List Char) :
    (l.takeWhile isHWS).count '\r' = 0 := by
  induction l with
  | nil => rfl
  | cons c t ih =>
    by_cases h : isHWS c
    · simp [List.takeWhile_cons, h, List.count_cons, ih, isHWS_ne_cr c h]
    · simp [List.takeWhile_cons, h]

theorem splitAtQuote_eq (l : List Char) :
    ∀ body after, splitAtQuote l = some (body, after) →
      l = body ++ '"' :: after := by
  induction l with
  | nil =>
    intro b a h
    simp [splitAtQuote] at h
  | cons c rest ih =>
    intro b a h
    simp only [splitAtQuote] at h
    by_cases hc : c = '"'
    · rw [if_pos hc] at h
      simp only [Option.some.injEq, Prod.mk.injEq] at h
      obtain ⟨rfl, rfl⟩ := h
      simp [hc]
    · rw [if_neg hc] at h
      cases hs : splitAtQuote rest with
      | none =>
        rw [hs] at h
        simp at h
      | some p =>
        obtain ⟨b2, a2⟩ := p
        rw [hs] at h
        simp only [Option.some.injEq, Prod.mk.injEq] at h
        obtain ⟨rfl, rfl⟩ := h
        simp [ih b2 a2 hs]

theorem count_cr_removeWhitespaceAux :
    ∀ (fuel : Nat) (l : List Char), l.length ≤ fuel →
      (removeWhitespaceAux fuel l).count '\r' = l.count '\r' := by
  intro fuel
  induction fuel with
  | zero =>
    intro l h
    rfl
  | succ fuel ih =>
    intro l h
    cases l with
    | nil => rfl
    | cons c rest =>
      simp only [removeWhitespaceAux]
      by_cases hq : c = '"'
      · rw [if_pos hq]
        cases hs : splitAtQuote rest with
        | none =>
          have hr : rest.length ≤ fuel := by
            simp only [List.length_cons] at h
            omega
          subst hq
          simp [List.count_cons, ih rest hr]
        | some p =>
          obtain ⟨body, after⟩ := p
          have hl := splitAtQuote_eq rest body after hs
          have hlen : after.length ≤ fuel := by
            rw [hl] at h
            simp only [List.length_cons, List.length_append] at h
            omega
          subst hq
          rw [hl]
          simp [List.count_cons, List.count_append, ih after hlen]
      · rw [if_neg hq]
        by_cases hw : isHWS c
        · rw [if_pos hw]
          have hsplit : rest = rest.takeWhile isHWS ++ rest.dropWhile isHWS :=
            (List.takeWhile_append_dropWhile isHWS rest).symm
          have hlen3 := congrArg List.length hsplit
          rw [List.length_append] at hlen3
          have hlen : (rest.dropWhile isHWS).length ≤ fuel := by
            simp only [List.length_cons] at h
            omega
          rw [ih (rest.dropWhile isHWS) hlen]
          conv_rhs => rw [List.count_cons, hsplit, List.count_append]
          rw [count_cr_takeWhile_hws]
          simp [isHWS_ne_cr c hw]
        · rw [if_neg hw]
          have hr : rest.length ≤ fuel := by
            simp only [List.length_cons] at h
            omega
          simp [List.count_cons, ih rest hr]

/-- Claim C9: a carriage return is not removed by whitespace stripping (the
stripping regex excludes it, so the count of carriage returns is preserved),
the newline rule rejects it (a single character never equals the
two-character string), and whenever the cursor of a live lexer sits on a
carriage return, `produce_next` fails with the unrecognized-character
error carrying that character. -/
theorem carriage_return_unrecognized :
    (∀ input : List Char,
        (remove_whitespace input).count '\r' = input.count '\r') ∧
      (∀ cur_pos : Nat, get_newlines '\r' cur_pos = none) ∧
      ∀ s : LexerState, s.at_end = false → s.source[s.cur_pos]? = some '\r' →
        produce_next s = .err (.unrecognizedChar '\r') := by
  refine ⟨?_, ?_, ?_⟩
  · intro input
    exact count_cr_removeWhitespaceAux input.length input (le_refl _)
  · intro pos
    simp [get_newlines]
  · intro s h1 h2
    rw [produce_next_eq_of s '\r' h1 h2,
      get_next_token_unrecognized s.source '\r' s.cur_pos (by decide) (by decide)
        (by decide) (by decide) (by decide)
        (fun d => by simp [TOKEN_TYPES]) (by decide)]


theorem length_takeWhile_le (p : Char → Bool) (l : List Char) :
    (l.takeWhile p).length ≤ l.length := by
  induction l with
  | nil => simp
  | cons c t ih =>
    by_cases h : p c
    · simp only [List.takeWhile_cons, h, if_true, List.length_cons]
      omega
    · simp [List.takeWhile_cons, h]

theorem drop_cons_inv (l : List Char) (k : Nat) (e : Char) (t : List Char)
    (h : l.drop k = e :: t) : l[k]? = some e ∧ l.drop (k + 1) = t := by
  have hk : k < l.length := by
    by_contra hc
    rw [List.drop_eq_nil_iff.mpr (Nat.le_of_not_lt hc)] at h
    exact List.noConfusion h
  have h2 := List.drop_eq_getElem_cons hk
  rw [h2] at h
  injection h with ha hb
  exact ⟨by rw [List.getElem?_eq_getElem hk, ha], hb⟩

theorem getElem?_drop_cons (l : List Char) (k : Nat) (e : Char)
    (h : l[k]? = some e) : l.drop k = e :: l.drop (k + 1) := by
  have hk : k < l.length := by
    by_contra hc
    rw [List.getElem?_eq_none (Nat.le_of_not_lt hc)] at h
    exact Option.noConfusion h
  have he : l[k] = e := by
    rw [List.getElem?_eq_getElem hk] at h
    exact Option.some.inj h
  rw [List.drop_eq_getElem_cons hk, he]

theorem take_append_exact (l1 l2 : List Char) (n : Nat) :
    (l1 ++ l2).take (l1.length + n) = l1 ++ l2.take n := by
  induction l1 with
  | nil => simp
  | cons c t ih =>
    have ha : (c :: t).length + n = (t.length + n) + 1 := by
      simp only [List.length_cons]
      omega
    rw [List.cons_append, ha, List.take_succ_cons, ih, List.cons_append]

theorem peek_eq_head_drop (src : List Char) (k : Nat) :
    peek src k =
      match src.drop (k + 1) with
      | [] => nullChar
      | e :: _ => e := by
  cases he : src[k + 1]? with
  | none =>
    have hnil : src.drop (k + 1) = [] :=
      List.drop_eq_nil_iff.mpr (List.getElem?_eq_none_iff.mp he)
    simp only [peek]
    rw [he, hnil]
  | some e =>
    have hd := getElem?_drop_cons src (k + 1) e he
    simp only [peek]
    rw [he, hd]


theorem get_number_spec (src : List Char) (c : Char) (pos : Nat)
    (hdig : isdigit c = true) (hc : src[pos]? = some c) :
    match numberSpec c (src.drop (pos + 1)) with
    | .error e => get_number src c pos = some (.error e)
    | .ok lex =>
      ∃ pos3, get_number src c pos = some (.ok (⟨lex, .NUMBER⟩, pos3)) ∧
        pos3 + 1 = pos + lex.length := by
  have hb1 : ((src.drop (pos + 1)).takeWhile isdigit).length ≤ src.length :=
    le_trans (length_takeWhile_le isdigit _) (by rw [List.length_drop]; omega)
  have hpos1 := skipWhile_spec isdigit src (by decide) src.length pos hb1
  have hcons : src.drop pos = c :: src.drop (pos + 1) := getElem?_drop_cons src pos c hc
  have hdd : src.drop (pos + 1 + ((src.drop (pos + 1)).takeWhile isdigit).length)
      = (src.drop (pos + 1)).drop ((src.drop (pos + 1)).takeWhile isdigit).length := by
    rw [List.drop_drop]
  have hpeek1 : peek src (pos + ((src.drop (pos + 1)).takeWhile isdigit).length)
      = (match (src.drop (pos + 1)).drop ((src.drop (pos + 1)).takeWhile isdigit).length with
          | [] => nullChar
          | e :: _ => e) := by
    rw [peek_eq_head_drop]
    have ha : pos + ((src.drop (pos + 1)).takeWhile isdigit).length + 1
        = pos + 1 + ((src.drop (pos + 1)).takeWhile isdigit).length := by omega
    rw [ha, hdd]
  cases hA : (src.drop (pos + 1)).drop ((src.drop (pos + 1)).takeWhile isdigit).length with
  | nil =>
    have hpeek2 : peek src (pos + ((src.drop (pos + 1)).takeWhile isdigit).length)
        = nullChar := by rw [hpeek1, hA]
    have hns : numberSpec c (src.drop (pos + 1))
        = .ok (c :: (src.drop (pos + 1)).takeWhile isdigit) := by
      simp only [numberSpec]
      rw [hA]
    rw [hns]
    refine ⟨pos + ((src.drop (pos + 1)).takeWhile isdigit).length, ?_, ?_⟩
    · simp only [get_number]
      rw [if_pos hdig, hpos1, hpeek2, if_neg (by decide : ¬ (nullChar = '.'))]
      have ht : pos + ((src.drop (pos + 1)).takeWhile isdigit).length + 1 - pos
          = ((src.drop (pos + 1)).takeWhile isdigit).length + 1 := by omega
      rw [ht, hcons, List.take_succ_cons, take_length_takeWhile]
    · simp only [List.length_cons]
      omega
  | cons e rest2 =>
    have h5 : src.drop (pos + 1 + ((src.drop (pos + 1)).takeWhile isdigit).length)
        = e :: rest2 := by rw [hdd, hA]
    have hdd2 : src.drop (pos + 1 + ((src.drop (pos + 1)).takeWhile isdigit).length + 1)
        = rest2 :=
      (drop_cons_inv src (pos + 1 + ((src.drop (pos + 1)).takeWhile isdigit).length)
        e rest2 h5).2
    have hpeek2 : peek src (pos + ((src.drop (pos + 1)).takeWhile isdigit).length)
        = e := by rw [hpeek1, hA]
    by_cases he : e = '.'
    · subst he
      have hns : numberSpec c (src.drop (pos + 1))
          = (if (rest2.takeWhile isdigit).length = 0 then
              Except.error LexError.malformedNumber
            else
              Except.ok (c :: (src.drop (pos + 1)).takeWhile isdigit ++
                '.' :: rest2.takeWhile isdigit)) := by
        simp only [numberSpec]
        rw [hA]
        rfl
      cases rest2 with
      | nil =>
        have hpeek4 : peek src (pos + ((src.drop (pos + 1)).takeWhile isdigit).length + 1)
            = nullChar := by
          rw [peek_eq_head_drop]
          have ha2 : pos + ((src.drop (pos + 1)).takeWhile isdigit).length + 1 + 1
              = pos + 1 + ((src.drop (pos + 1)).takeWhile isdigit).length + 1 := by omega
          rw [ha2, hdd2]
        rw [hns, if_pos (show (List.takeWhile isdigit ([] : List Char)).length = 0 from rfl)]
        show get_number src c pos = some (Except.error LexError.malformedNumber)
        simp only [get_number]
        rw [if_pos hdig, hpos1, hpeek2, if_pos rfl, hpeek4,
          if_pos (by decide : ¬ isdigit nullChar = true)]
      | cons f rest3 =>
        have hpeek4 : peek src (pos + ((src.drop (pos + 1)).takeWhile isdigit).length + 1)
            = f := by
          rw [peek_eq_head_drop]
          have ha2 : pos + ((src.drop (pos + 1)).takeWhile isdigit).length + 1 + 1
              = pos + 1 + ((src.drop (pos + 1)).takeWhile isdigit).length + 1 := by omega
          rw [ha2, hdd2]
        by_cases hf : isdigit f
        · have hrun2 : (f :: rest3).takeWhile isdigit = f :: rest3.takeWhile isdigit := by
            rw [List.takeWhile_cons, if_pos hf]
          have hns2 : numberSpec c (src.drop (pos + 1))
              = Except.ok (c :: (src.drop (pos + 1)).takeWhile isdigit ++
                  '.' :: (f :: rest3).takeWhile isdigit) := by
            rw [hns, if_neg (by rw [hrun2]; simp)]
          rw [hns2]
          have hb2 : ((src.drop (pos + ((src.drop (pos + 1)).takeWhile isdigit).length + 1 + 1)).takeWhile isdigit).length
              ≤ src.length :=
            le_trans (length_takeWhile_le isdigit _) (by rw [List.length_drop]; omega)
          have hpos3 := skipWhile_spec isdigit src (by decide) src.length
            (pos + ((src.drop (pos + 1)).takeWhile isdigit).length + 1) hb2
          have hdx : src.drop (pos + ((src.drop (pos + 1)).takeWhile isdigit).length + 1 + 1)
              = f :: rest3 := by
            have ha3 : pos + ((src.drop (pos + 1)).takeWhile isdigit).length + 1 + 1
                = pos + 1 + ((src.drop (pos + 1)).takeWhile isdigit).length + 1 := by omega
            rw [ha3, hdd2]
          rw [hdx] at hpos3
          refine ⟨pos + ((src.drop (pos + 1)).takeWhile isdigit).length + 1 +
            ((f :: rest3).takeWhile isdigit).length, ?_, ?_⟩
          · have hRsplit : src.drop (pos + 1)
                = (src.drop (pos + 1)).takeWhile isdigit ++ '.' :: f :: rest3 := by
              conv_lhs => rw [← List.take_append_drop
                ((src.drop (pos + 1)).takeWhile isdigit).length (src.drop (pos + 1))]
              rw [take_length_takeWhile, hA]
            have hkey : (src.drop (pos + 1)).take
                (((src.drop (pos + 1)).takeWhile isdigit).length +
                  (((f :: rest3).takeWhile isdigit).length + 1))
                = (src.drop (pos + 1)).takeWhile isdigit ++
                  '.' :: (f :: rest3).takeWhile isdigit := by
              have hta := take_append_exact ((src.drop (pos + 1)).takeWhile isdigit)
                ('.' :: f :: rest3) (((f :: rest3).takeWhile isdigit).length + 1)
              rw [← hRsplit] at hta
              rw [hta, List.take_succ_cons, take_length_takeWhile]
            simp only [get_number]
            rw [if_pos hdig, hpos1, hpeek2, if_pos rfl, hpeek4, if_neg (by simp [hf]),
              hpos3]
            have ht : pos + ((src.drop (pos + 1)).takeWhile isdigit).length + 1 +
                ((f :: rest3).takeWhile isdigit).length + 1 - pos
                = (((src.drop (pos + 1)).takeWhile isdigit).length +
                  (((f :: rest3).takeWhile isdigit).length + 1)) + 1 := by omega
            rw [ht, hcons, List.take_succ_cons, hkey, List.cons_append]
          · simp only [List.length_cons, List.length_append]
            omega
        · have hns2 : numberSpec c (src.drop (pos + 1))
              = Except.error LexError.malformedNumber := by
            rw [hns, if_pos (by rw [List.takeWhile_cons, if_neg hf]; rfl)]
          rw [hns2]
          show get_number src c pos = some (Except.error LexError.malformedNumber)
          simp only [get_number]
          rw [if_pos hdig, hpos1, hpeek2, if_pos rfl, hpeek4,
            if_pos (by simp [hf])]
    · have hns : numberSpec c (src.drop (pos + 1))
          = .ok (c :: (src.drop (pos + 1)).takeWhile isdigit) := by
        simp only [numberSpec]
        rw [hA]
        split
        · rename_i heq
          injection heq with he2 _
          exact absurd he2 he
        · rfl
      rw [hns]
      refine ⟨pos + ((src.drop (pos + 1)).takeWhile isdigit).length, ?_, ?_⟩
      · simp only [get_number]
        rw [if_pos hdig, hpos1, hpeek2, if_neg he]
        have ht : pos + ((src.drop (pos + 1)).takeWhile isdigit).length + 1 - pos
            = ((src.drop (pos + 1)).takeWhile isdigit).length + 1 := by omega
        rw [ht, hcons, List.take_succ_cons, take_length_takeWhile]
      · simp only [List.length_cons]
        omega


/-- Claim C4: the number rule.  On a digit the lexer consumes all following
digits, optionally one dot that must be followed by at least one digit, then
all following digits; the token is a `Number` whose text is the full
consumed span and the cursor ends just past it, and a dot not followed by a
digit fails with the malformed-number error.  `numberSpec` restates that
sentence over takeWhile runs; concretely `"123"`, `"12.5"` and `"12."`
behave as stated. -/
theorem number_rule :
    (∀ (s : LexerState) (c : Char),
        s.at_end = false →
        s.source[s.cur_pos]? = some c →
        isdigit c = true →
        match numberSpec c (s.source.drop (s.cur_pos + 1)) with
        | .error e => produce_next s = .err e
        | .ok lex =>
          ∃ pos3,
            produce_next s =
              .tok ⟨lex, .NUMBER⟩
                ⟨s.source, pos3 + 1, some (peek s.source pos3),
                  decide (s.next_char = some nullChar)⟩ ∧
              pos3 + 1 = s.cur_pos + lex.length) ∧
      tokenize (str "123") =
        ([⟨str "123", .NUMBER⟩, ⟨[nullChar], .EOF⟩], .finished) ∧
      tokenize (str "12.5") =
        ([⟨str "12.5", .NUMBER⟩, ⟨[nullChar], .EOF⟩], .finished) ∧
      tokenize (str "12.") = ([], .failed .malformedNumber) := by
  refine ⟨?_, by decide, by decide, by decide⟩
  intro s c h1 h2 hdig
  have hgs := get_number_spec s.source c s.cur_pos hdig h2
  rw [produce_next_eq_of s c h1 h2]
  cases hns : numberSpec c (s.source.drop (s.cur_pos + 1)) with
  | error e =>
    rw [hns] at hgs
    have hgs2 : get_number s.source c s.cur_pos = some (.error e) := hgs
    simp only [get_next_token, hgs2]
  | ok lex =>
    rw [hns] at hgs
    have hgs2 : ∃ pos3,
        get_number s.source c s.cur_pos = some (.ok (⟨lex, .NUMBER⟩, pos3)) ∧
          pos3 + 1 = s.cur_pos + lex.length := hgs
    obtain ⟨pos3, hg, harr⟩ := hgs2
    refine ⟨pos3, ?_, harr⟩
    simp only [get_next_token, hg]

theorem number_rule_witness :
    produce_next (TokenGenerator (str "12.")) = .err .malformedNumber := by
  have h := number_rule.1 (TokenGenerator (str "12.")) '1' (by decide) (by decide)
    (by decide)
  exact h


theorem mem_allTokenTypes (k : TokenType) : k ∈ allTokenTypes := by
  cases k <;> decide

theorem get_ident_spec (src : List Char) (c : Char) (pos : Nat)
    (halpha : isalpha c = true) (hc : src[pos]? = some c) :
    get_ident_or_keyword src c pos =
      some
        (⟨c :: (src.drop (pos + 1)).takeWhile isalnum,
          match check_if_keyword (c :: (src.drop (pos + 1)).takeWhile isalnum) with
          | some k => k
          | none => .IDENT⟩,
        pos + ((src.drop (pos + 1)).takeWhile isalnum).length) := by
  have hb1 : ((src.drop (pos + 1)).takeWhile isalnum).length ≤ src.length :=
    le_trans (length_takeWhile_le isalnum _) (by rw [List.length_drop]; omega)
  have hpos1 := skipWhile_spec isalnum src (by decide) src.length pos hb1
  have hcons : src.drop pos = c :: src.drop (pos + 1) := getElem?_drop_cons src pos c hc
  simp only [get_ident_or_keyword]
  rw [if_pos halpha, hpos1]
  have ht : pos + ((src.drop (pos + 1)).takeWhile isalnum).length + 1 - pos
      = ((src.drop (pos + 1)).takeWhile isalnum).length + 1 := by omega
  rw [ht, hcons, List.take_succ_cons, take_length_takeWhile]
  cases hck : check_if_keyword (c :: (src.drop (pos + 1)).takeWhile isalnum) with
  | some k => rfl
  | none => rfl

/-- Claim C5: keyword classification.  For every lexeme scanned by the
identifier rule (a letter plus all following alphanumerics) the lexer
emits a keyword kind exactly when that kind's name equals the lexeme
case-sensitively (keyword band of the enumeration), and emits `Identifier`
when no keyword name equals the lexeme, so there is no prefix matching; in
particular `"IF"` lexes to the `If` keyword and `"IFX"` to an identifier. -/
theorem keyword_classification :
    (∀ (s : LexerState) (c : Char),
        s.at_end = false →
        s.source[s.cur_pos]? = some c →
        isalpha c = true →
        ∃ kind,
          produce_next s =
            .tok ⟨c :: (s.source.drop (s.cur_pos + 1)).takeWhile isalnum, kind⟩
              ⟨s.source,
                s.cur_pos + ((s.source.drop (s.cur_pos + 1)).takeWhile isalnum).length + 1,
                some (peek s.source
                  (s.cur_pos + ((s.source.drop (s.cur_pos + 1)).takeWhile isalnum).length)),
                decide (s.next_char = some nullChar)⟩ ∧
          ((100 ≤ kind.value ∧ kind.value < 200 ∧
              kind.name = c :: (s.source.drop (s.cur_pos + 1)).takeWhile isalnum) ∨
            (kind = .IDENT ∧
              ∀ k : TokenType, 100 ≤ k.value → k.value < 200 →
                k.name ≠ c :: (s.source.drop (s.cur_pos + 1)).takeWhile isalnum))) ∧
      tokenize (str "IF") = ([⟨str "IF", .IF⟩, ⟨[nullChar], .EOF⟩], .finished) ∧
      tokenize (str "IFX") =
        ([⟨str "IFX", .IDENT⟩, ⟨[nullChar], .EOF⟩], .finished) := by
  refine ⟨?_, by decide, by decide⟩
  intro s c h1 h2 halpha
  have hdigf : isdigit c = false := isdigit_false_of_isalpha c halpha
  have hid := get_ident_spec s.source c s.cur_pos halpha h2
  rw [produce_next_eq_of s c h1 h2]
  refine ⟨(match check_if_keyword (c :: (s.source.drop (s.cur_pos + 1)).takeWhile isalnum)
      with
    | some k => k
    | none => .IDENT), ?_, ?_⟩
  · simp only [get_next_token, get_number_none _ _ _ hdigf, hid]
  · cases hck : check_if_keyword (c :: (s.source.drop (s.cur_pos + 1)).takeWhile isalnum)
      with
    | some k =>
      have hp := List.find?_some hck
      simp only [Bool.and_eq_true, decide_eq_true_eq] at hp
      exact Or.inl ⟨hp.1.2, hp.2, hp.1.1⟩
    | none =>
      refine Or.inr ⟨rfl, ?_⟩
      intro k hge hlt hname
      have hmem : k ∈ allTokenTypes := mem_allTokenTypes k
      have hfn := List.find?_eq_none.mp hck k hmem
      simp only [Bool.and_eq_true, decide_eq_true_eq, not_and] at hfn
      exact hfn ⟨hname, hge⟩ hlt


theorem lastCloseSplit_append (mid tail : List Char) (hm : '\n' ∉ mid)
    (ht : lastCloseSplit tail = none) :
    lastCloseSplit (mid ++ '*' :: '/' :: tail) = some tail := by
  induction mid with
  | nil =>
    have h1 : lastCloseSplit ('/' :: tail) = none := by
      rw [lastCloseSplit, if_neg (by decide : ¬ ('/' : Char) = '\n'), ht]
      rfl
    rw [List.nil_append, lastCloseSplit, if_neg (by decide : ¬ ('*' : Char) = '\n'), h1]
    rfl
  | cons c mid2 ih =>
    have hc : c ≠ '\n' := by
      intro hcc
      subst hcc
      exact hm (List.mem_cons_self _ _)
    have hm2 : '\n' ∉ mid2 := fun hx => hm (List.mem_cons_of_mem c hx)
    rw [List.cons_append, lastCloseSplit, if_neg hc, ih hm2]

/-- Claim C10: comment removal is greedy within a line.  When a `/*` is
followed by comment-free-tail material whose last line-local `*/` closes the
span, everything from the `/*` to that last `*/` is deleted, including
non-comment text between two comments; concretely `"1/*a*/+/*b*/2"`
normalizes to `"12"` and lexes as one `Number` token, not as
number-plus-number. -/
theorem comment_removal_greedy :
    (∀ (fuel : Nat) (mid tail : List Char), '\n' ∉ mid →
        lastCloseSplit tail = none →
        removeCommentsAux (fuel + 1) ('/' :: '*' :: (mid ++ '*' :: '/' :: tail))
          = removeCommentsAux fuel tail) ∧
      remove_comments (str "1/*a*/+/*b*/2") = str "12" ∧
      tokenize (str "1/*a*/+/*b*/2") =
        ([⟨str "12", .NUMBER⟩, ⟨[nullChar], .EOF⟩], .finished) := by
  refine ⟨?_, by decide, by decide⟩
  intro fuel mid tail hm ht
  simp only [removeCommentsAux]
  rw [lastCloseSplit_append mid tail hm ht]

theorem comment_removal_greedy_witness :
    removeCommentsAux 2 (str "/*a*/2") = removeCommentsAux 1 (str "2") := by
  have h := comment_removal_greedy.1 1 ['a'] ['2'] (by decide) (by decide)
  exact h

theorem maximal_munch_witness :
    produce_next (TokenGenerator (str "<=")) =
      .tok ⟨str "<=", .LTEQ⟩ ⟨str "<=", 2, some nullChar, false⟩ := by
  have h := maximal_munch.1 (TokenGenerator (str "<=")) '<' '=' .LTEQ (by decide)
    (by decide) (by decide) (by decide)
  exact h.trans (by decide)

theorem cursor_monotonicity_witness :
    ((TokenGenerator (str "1")).cur_pos < 1 ∧
        (['1'] : List Char) = (TokenGenerator (str "1")).source ∧
        (TokenGenerator (str "1")).at_end = false) ∧
      produce_next ⟨['1'], 2, some nullChar, true⟩ = .stopIteration := by
  constructor
  · exact cursor_monotonicity.1 (TokenGenerator (str "1")) ⟨['1'], .NUMBER⟩
      ⟨['1'], 1, some nullChar, false⟩ (by decide)
  · exact cursor_monotonicity.2 ⟨['1'], 2, some nullChar, true⟩ (by decide)

theorem carriage_return_unrecognized_witness :
    (remove_whitespace (str " \r")).count '\r' = (str " \r").count '\r' ∧
      get_newlines '\r' 0 = none ∧
      produce_next (TokenGenerator (str "\rX")) = .err (.unrecognizedChar '\r') :=
  ⟨carriage_return_unrecognized.1 (str " \r"),
    carriage_return_unrecognized.2.1 0,
    carriage_return_unrecognized.2.2 (TokenGenerator (str "\rX")) (by decide)
      (by decide)⟩

theorem keyword_classification_witness :
    produce_next (TokenGenerator (str "IFX")) =
      .tok ⟨str "IFX", .IDENT⟩ ⟨str "IFX", 3, some nullChar, false⟩ := by
  obtain ⟨kind, hp, hcase⟩ := keyword_classification.1 (TokenGenerator (str "IFX")) 'I'
    (by decide) (by decide) (by decide)
  rcases hcase with ⟨hge, hlt, hname⟩ | ⟨hk, _⟩
  · cases kind <;>
      first
      | exact absurd hge (by decide)
      | exact absurd hlt (by decide)
      | exact absurd hname (by decide)
  · subst hk
    exact hp.trans (by decide)

end Tokenizer
